import Mathlib

/-!
Verification of the interpretability core of the IMDB linear
text-classification notebook (`imdb-interpretability-data-preparation.ipynb`).

Floating-point numbers are modelled as exact real numbers; the top-k
extraction, which only compares scores, is modelled over exact rationals so
that it stays executable.  The embedded source lines are:

  labels_normalized = StandardScaler().fit_transform(predictions_proba)
  data_scaled       = StandardScaler(with_mean=False).fit_transform(X_test)
  prediction_sign   = -np.sign(predictions_proba.argmax(axis=1) - .5)
  pattern           = labels_normalized[:,0].T @ data_scaled
  word_scores       = sp.sparse.diags(prediction_sign) * ((data_scaled>0)*1.)
                        @ sp.sparse.diags(pattern)
  top_words         = word_scores[idx,:].toarray().flatten()
                        .argsort()[-top_what:][::-1]
-/

namespace Imdb

/-- Column mean, `sum / n`, as computed by sklearn `StandardScaler.fit`. -/
noncomputable def mean {n : ℕ} (v : Fin n → ℝ) : ℝ := (∑ i, v i) / (n : ℝ)

/-- Population variance (`ddof = 0`, no sample correction), as computed by
sklearn `StandardScaler.fit`. -/
noncomputable def variance {n : ℕ} (v : Fin n → ℝ) : ℝ :=
  (∑ i, (v i - mean v) ^ 2) / (n : ℝ)

/-- sklearn `_handle_zeros_in_scale`: a zero scale factor is replaced by `1`
before dividing, so a constant column is never divided by zero. -/
noncomputable def handleZeros (s : ℝ) : ℝ := if s = 0 then 1 else s

/-- The per-column scale of `StandardScaler`: the square root of the
population variance, with zero replaced by `1`. -/
noncomputable def scaleOf {n : ℕ} (v : Fin n → ℝ) : ℝ :=
  handleZeros (Real.sqrt (variance v))

/-- Column `j` of a matrix given as a function of rows. -/
def column {n m : ℕ} (M : Fin n → Fin m → ℝ) (j : Fin m) : Fin n → ℝ :=
  fun i => M i j

/-- `StandardScaler().fit_transform` on one column: subtract the mean, divide
by the scale. -/
noncomputable def standardizeColumn {n : ℕ} (v : Fin n → ℝ) : Fin n → ℝ :=
  fun i => (v i - mean v) / scaleOf v

/-- `StandardScaler(with_mean=False).fit_transform` on one column: divide by
the scale only, no mean subtraction (the sparsity-preserving approximation). -/
noncomputable def scaleColumn {n : ℕ} (v : Fin n → ℝ) : Fin n → ℝ :=
  fun i => v i / scaleOf v

/-- `labels_normalized = StandardScaler().fit_transform(predictions_proba)`:
every prediction column standardized to zero mean and unit variance. -/
noncomputable def labels_normalized {n k : ℕ} (P : Fin n → Fin k → ℝ) :
    Fin n → Fin k → ℝ :=
  fun i c => standardizeColumn (column P c) i

/-- `data_scaled = StandardScaler(with_mean=False).fit_transform(X_test)`:
every feature column divided by its standard deviation only. -/
noncomputable def data_scaled {n d : ℕ} (X : Fin n → Fin d → ℝ) :
    Fin n → Fin d → ℝ :=
  fun i j => scaleColumn (column X j) i

/-- `pattern = labels_normalized[:,c].T @ data_scaled`, the notebook computes
class `c = 0`; the estimator is the same expression per class `c`.  A numpy
1-d vector `@` matrix product has entries `fun j => ∑ i, v i * M i j`. -/
noncomputable def pattern {n d k : ℕ} (P : Fin n → Fin k → ℝ)
    (X : Fin n → Fin d → ℝ) (c : Fin k) : Fin d → ℝ :=
  fun j => ∑ i, labels_normalized P i c * data_scaled X i j

/-- Spec-side statement of C1: the pattern as a genuine vector-matrix product
of the standardized prediction column with the scaled feature matrix. -/
noncomputable def patternSpec {n d k : ℕ} (P : Fin n → Fin k → ℝ)
    (X : Fin n → Fin d → ℝ) (c : Fin k) : Fin d → ℝ :=
  Matrix.vecMul (fun i => labels_normalized P i c) (Matrix.of (data_scaled X))

/-- `prediction_sign = -np.sign(predictions_proba.argmax(axis=1) - .5)`:
`argmax` over the two class columns is `0` when `P i 0 ≥ P i 1` (numpy takes
the first maximal index), giving `-sign(-0.5) = 1`; otherwise it is `1`,
giving `-sign(0.5) = -1`. -/
noncomputable def prediction_sign {n : ℕ} (P : Fin n → Fin 2 → ℝ) : Fin n → ℝ :=
  fun i => if P i 0 < P i 1 then -1 else 1

/-- `(data_scaled > 0) * 1.`: the binary presence indicator matrix. -/
noncomputable def indicator {n d : ℕ} (X : Fin n → Fin d → ℝ) :
    Matrix (Fin n) (Fin d) ℝ :=
  Matrix.of fun i j => if 0 < data_scaled X i j then 1 else 0

/-- `word_scores = diags(prediction_sign) * ((data_scaled>0)*1.)
@ diags(pattern)`, with `pattern` the class-0 pattern as in the notebook. -/
noncomputable def word_scores {n d : ℕ} (P : Fin n → Fin 2 → ℝ)
    (X : Fin n → Fin d → ℝ) : Matrix (Fin n) (Fin d) ℝ :=
  Matrix.diagonal (prediction_sign P) * indicator X *
    Matrix.diagonal (pattern P X 0)

/-- Per-row relevance: the row-`i` entry formula of `word_scores` with the
prediction sign as a parameter (the spec contract `score_document`). -/
noncomputable def score_document {d : ℕ} (x : Fin d → ℝ) (s : ℝ)
    (a : Fin d → ℝ) : Fin d → ℝ :=
  fun j => s * (if 0 < x j then 1 else 0) * a j

/-- Key of a stable ascending argsort: sort by value, ties by original index.
A stable ascending sort by value is exactly a sort by this lexicographic
key. -/
def ascKey (v : ℕ → ℚ) (a b : ℕ) : Prop := v a < v b ∨ (v a = v b ∧ a ≤ b)

instance (v : ℕ → ℚ) : DecidableRel (ascKey v) := fun a b =>
  inferInstanceAs (Decidable (v a < v b ∨ (v a = v b ∧ a ≤ b)))

/-- `np.argsort` of the length-`d` vector `v`, modelled with stable tie order
(ascending index among equal values).  CAUTION: numpy's default
`kind='quicksort'` is documented as not stable, and guarantees this tie order
only for arrays within its insertion-sort threshold (small arrays); for larger
arrays only `IsArgsortOf` below is guaranteed.  Concrete evaluations of this
model are used only at small sizes, where numpy does take the stable
insertion-sort path; tie-order-sensitive general statements are instead
quantified over `IsArgsortOf`. -/
def argsort (d : ℕ) (v : ℕ → ℚ) : List ℕ :=
  List.insertionSort (ascKey v) (List.range d)

/-- What `np.argsort` guarantees for EVERY sort kind, stable or not: the
result is some permutation of the indices `0 .. d-1` that is weakly ascending
in the values `v`.  The tie order among equal values is unspecified. -/
def IsArgsortOf (d : ℕ) (v : ℕ → ℚ) (l : List ℕ) : Prop :=
  l.Perm (List.range d) ∧ List.Sorted (fun a b => v a ≤ v b) l

/-- Python slice `l[-k:]` for an arbitrary integer `k`: for `k > 0` the last
`min k (length l)` elements, for `k = 0` the whole list (since `-0 = 0`), and
for `k < 0` the suffix `l[(-k):]`. -/
def sliceLast (l : List ℕ) (k : ℤ) : List ℕ :=
  if 0 < k then l.drop (l.length - k.toNat) else l.drop (-k).toNat

/-- `top_words = word_scores[idx,:].toarray().flatten()
.argsort()[-top_what:][::-1]` as a function of the score row `v` and `k`. -/
def top_words (d : ℕ) (v : ℕ → ℚ) (k : ℤ) : List ℕ :=
  (sliceLast (argsort d v) k).reverse

/-- The notebook's extraction `l[-k:][::-1]` applied to an arbitrary argsort
result `l`; `top_words d v k` is `topFrom (argsort d v) k`. -/
def topFrom (l : List ℕ) (k : ℤ) : List ℕ := (sliceLast l k).reverse

/-- Spec-side descending key: value descending, ties by highest index first. -/
def descKey (v : ℕ → ℚ) (a b : ℕ) : Prop := v b < v a ∨ (v a = v b ∧ b ≤ a)

instance (v : ℕ → ℚ) : DecidableRel (descKey v) := fun a b =>
  inferInstanceAs (Decidable (v b < v a ∨ (v a = v b ∧ b ≤ a)))

/-- Spec-side top-k: the `k` largest entries in descending value order, ties
broken by the highest index. -/
def topKDesc (d : ℕ) (v : ℕ → ℚ) (k : ℕ) : List ℕ :=
  (List.insertionSort (descKey v) (List.range d)).take k

/-- Concrete prediction matrix with two distinct rows, for witnesses. -/
noncomputable def P2 : Fin 2 → Fin 2 → ℝ := ![![1, 0], ![0, 1]]

/-- Concrete feature matrix with one column of variance 1, for witnesses. -/
noncomputable def X2 : Fin 2 → Fin 1 → ℝ := ![![0], ![2]]

/-- Concrete prediction matrix, one row, class 0 predicted. -/
noncomputable def P3 : Fin 1 → Fin 2 → ℝ := ![![1, 0]]

/-- Concrete feature matrix whose entry at row 0, column 1 is zero. -/
noncomputable def X3 : Fin 1 → Fin 2 → ℝ := ![![1, 0]]

/-- The degenerate prediction matrix of the claim: constant probability 1 for
class 0 in every row, so the class-0 column has zero variance. -/
noncomputable def P5 : Fin 3 → Fin 2 → ℝ := ![![1, 0], ![1, 0], ![1, 0]]

/-- A concrete feature matrix paired with `P5`. -/
noncomputable def X5 : Fin 3 → Fin 1 → ℝ := ![![1], ![2], ![3]]

/-- A unit-variance column, for the idempotence witness. -/
noncomputable def v9 : Fin 2 → ℝ := ![0, 2]

/-- A concrete positive feature matrix, for the indicator witness. -/
noncomputable def X10 : Fin 1 → Fin 1 → ℝ := ![![3]]

/-- A concrete positive column scale, for the indicator witness. -/
noncomputable def s10 : Fin 1 → ℝ := fun _ => 2

/-- The tie example of the claim: relevance 0.9 at index 1, 0.5 at indices 2
and 5, zero elsewhere, on a vocabulary of size 6. -/
def vTie : ℕ → ℚ :=
  fun i => if i = 1 then mkRat 9 10 else if i = 2 then mkRat 1 2 else
    if i = 5 then mkRat 1 2 else 0

/-- A score row with a single nonzero entry, on a vocabulary of size 3. -/
def v6 : ℕ → ℚ := fun i => if i = 0 then 1 else 0

/-- A score row with pairwise distinct values on a vocabulary of size 3. -/
def vInj : ℕ → ℚ :=
  fun i => if i = 0 then 3 else if i = 1 then 1 else if i = 2 then 2 else 0

lemma sum_sub_mean {n : ℕ} (hn : 0 < n) (v : Fin n → ℝ) :
    ∑ i, (v i - mean v) = 0 := by
  have hn2 : (n : ℝ) ≠ 0 := Nat.cast_ne_zero.mpr hn.ne'
  rw [Finset.sum_sub_distrib, Finset.sum_const, Finset.card_univ, Fintype.card_fin,
    mean, nsmul_eq_mul]
  field_simp

lemma mean_div {n : ℕ} (v : Fin n → ℝ) (s : ℝ) :
    mean (fun i => v i / s) = mean v / s := by
  simp only [mean, ← Finset.sum_div]
  rw [div_right_comm]

lemma mean_sub_const {n : ℕ} (hn : 0 < n) (v : Fin n → ℝ) (c : ℝ) :
    mean (fun i => v i - c) = mean v - c := by
  have hn2 : (n : ℝ) ≠ 0 := Nat.cast_ne_zero.mpr hn.ne'
  simp only [mean, Finset.sum_sub_distrib, Finset.sum_const, Finset.card_univ,
    Fintype.card_fin, nsmul_eq_mul]
  field_simp

lemma variance_nonneg {n : ℕ} (v : Fin n → ℝ) : 0 ≤ variance v :=
  div_nonneg (Finset.sum_nonneg fun _ _ => sq_nonneg _) (Nat.cast_nonneg n)

lemma variance_pos {n : ℕ} (v : Fin n → ℝ) (h : variance v ≠ 0) :
    0 < variance v :=
  lt_of_le_of_ne (variance_nonneg v) (Ne.symm h)

lemma variance_div {n : ℕ} (v : Fin n → ℝ) (s : ℝ) :
    variance (fun i => v i / s) = variance v / s ^ 2 := by
  unfold variance
  rw [mean_div]
  have h : ∀ i : Fin n, (v i / s - mean v / s) ^ 2 = (v i - mean v) ^ 2 / s ^ 2 :=
    fun i => by rw [div_sub_div_same, div_pow]
  simp_rw [h]
  rw [← Finset.sum_div, div_right_comm]

lemma variance_sub_const {n : ℕ} (hn : 0 < n) (v : Fin n → ℝ) (c : ℝ) :
    variance (fun i => v i - c) = variance v := by
  unfold variance
  rw [mean_sub_const hn]
  congr 1
  apply Finset.sum_congr rfl
  intro i _
  ring

lemma scaleOf_pos {n : ℕ} (v : Fin n → ℝ) : 0 < scaleOf v := by
  unfold scaleOf handleZeros
  split
  · exact one_pos
  · rename_i h
    exact lt_of_le_of_ne (Real.sqrt_nonneg _) (Ne.symm h)

lemma scaleOf_eq_sqrt {n : ℕ} (v : Fin n → ℝ) (h : variance v ≠ 0) :
    scaleOf v = Real.sqrt (variance v) := by
  have hne : Real.sqrt (variance v) ≠ 0 := by
    rw [Real.sqrt_ne_zero (variance_nonneg v)]
    exact h
  simp [scaleOf, handleZeros, hne]

lemma scaleOf_sq {n : ℕ} (v : Fin n → ℝ) (h : variance v ≠ 0) :
    scaleOf v ^ 2 = variance v := by
  rw [scaleOf_eq_sqrt v h, Real.sq_sqrt (variance_nonneg v)]

lemma mean_standardize {n : ℕ} (hn : 0 < n) (v : Fin n → ℝ) :
    mean (standardizeColumn v) = 0 := by
  have h1 : standardizeColumn v = fun i => (v i - mean v) / scaleOf v := rfl
  rw [h1, mean_div, mean_sub_const hn]
  simp

lemma variance_standardize {n : ℕ} (hn : 0 < n) (v : Fin n → ℝ)
    (h : variance v ≠ 0) : variance (standardizeColumn v) = 1 := by
  have h1 : standardizeColumn v = fun i => (v i - mean v) / scaleOf v := rfl
  rw [h1, variance_div, variance_sub_const hn, scaleOf_sq v h, div_self h]

lemma variance_scaleColumn {n : ℕ} (v : Fin n → ℝ) (h : variance v ≠ 0) :
    variance (scaleColumn v) = 1 := by
  have h1 : scaleColumn v = fun i => v i / scaleOf v := rfl
  rw [h1, variance_div, scaleOf_sq v h, div_self h]

lemma mean_comp_perm {n : ℕ} (v : Fin n → ℝ) (σ : Equiv.Perm (Fin n)) :
    mean (fun i => v (σ i)) = mean v := by
  unfold mean
  rw [Equiv.sum_comp σ v]

lemma variance_comp_perm {n : ℕ} (v : Fin n → ℝ) (σ : Equiv.Perm (Fin n)) :
    variance (fun i => v (σ i)) = variance v := by
  unfold variance
  rw [mean_comp_perm v σ]
  congr 1
  exact Equiv.sum_comp σ (fun i => (v i - mean v) ^ 2)

lemma scaleOf_comp_perm {n : ℕ} (v : Fin n → ℝ) (σ : Equiv.Perm (Fin n)) :
    scaleOf (fun i => v (σ i)) = scaleOf v := by
  unfold scaleOf
  rw [variance_comp_perm v σ]

lemma standardizeColumn_comp_perm {n : ℕ} (v : Fin n → ℝ)
    (σ : Equiv.Perm (Fin n)) (i : Fin n) :
    standardizeColumn (fun i2 => v (σ i2)) i = standardizeColumn v (σ i) := by
  unfold standardizeColumn
  rw [mean_comp_perm v σ, scaleOf_comp_perm v σ]

lemma scaleColumn_comp_perm {n : ℕ} (v : Fin n → ℝ)
    (σ : Equiv.Perm (Fin n)) (i : Fin n) :
    scaleColumn (fun i2 => v (σ i2)) i = scaleColumn v (σ i) := by
  unfold scaleColumn
  rw [scaleOf_comp_perm v σ]

lemma word_scores_apply {n d : ℕ} (P : Fin n → Fin 2 → ℝ)
    (X : Fin n → Fin d → ℝ) (i : Fin n) (j : Fin d) :
    word_scores P X i j
      = prediction_sign P i * (if 0 < data_scaled X i j then 1 else 0)
          * pattern P X 0 j := by
  unfold word_scores indicator
  rw [Matrix.mul_diagonal, Matrix.diagonal_mul]
  rfl

/-- Sanity link: each row of `word_scores` is `score_document` applied to the
scaled feature row, the row sign and the class-0 pattern. -/
lemma word_scores_eq_score_document {n d : ℕ} (P : Fin n → Fin 2 → ℝ)
    (X : Fin n → Fin d → ℝ) (i : Fin n) (j : Fin d) :
    word_scores P X i j
      = score_document (fun j2 => data_scaled X i j2) (prediction_sign P i)
          (pattern P X 0) j := by
  rw [word_scores_apply]
  rfl

lemma descKey_swap (v : ℕ → ℚ) (a b : ℕ) : descKey v a b ↔ ascKey v b a := by
  unfold descKey ascKey
  constructor
  · rintro (h | ⟨h, h2⟩)
    · exact Or.inl h
    · exact Or.inr ⟨h.symm, h2⟩
  · rintro (h | ⟨h, h2⟩)
    · exact Or.inl h
    · exact Or.inr ⟨h.symm, h2⟩

instance (v : ℕ → ℚ) : IsTotal ℕ (ascKey v) := ⟨by
  intro a b
  rcases lt_trichotomy (v a) (v b) with h | h | h
  · exact Or.inl (Or.inl h)
  · rcases le_total a b with hab | hab
    · exact Or.inl (Or.inr ⟨h, hab⟩)
    · exact Or.inr (Or.inr ⟨h.symm, hab⟩)
  · exact Or.inr (Or.inl h)⟩

instance (v : ℕ → ℚ) : IsTrans ℕ (ascKey v) := ⟨by
  intro a b c hab hbc
  rcases hab with h1 | ⟨h1, h3⟩
  · rcases hbc with h2 | ⟨h2, h4⟩
    · exact Or.inl (h1.trans h2)
    · exact Or.inl (by rw [← h2]; exact h1)
  · rcases hbc with h2 | ⟨h2, h4⟩
    · exact Or.inl (by rw [h1]; exact h2)
    · exact Or.inr ⟨h1.trans h2, le_trans h3 h4⟩⟩

instance (v : ℕ → ℚ) : IsTotal ℕ (descKey v) := ⟨fun a b =>
  (total_of (ascKey v) b a).imp (fun h => (descKey_swap v a b).mpr h)
    (fun h => (descKey_swap v b a).mpr h)⟩

instance (v : ℕ → ℚ) : IsTrans ℕ (descKey v) := ⟨fun a b c hab hbc =>
  (descKey_swap v a c).mpr
    (trans_of (ascKey v) ((descKey_swap v b c).mp hbc) ((descKey_swap v a b).mp hab))⟩

instance (v : ℕ → ℚ) : IsAntisymm ℕ (descKey v) := ⟨by
  intro a b hab hba
  rcases hab with h1 | ⟨h1, h3⟩
  · rcases hba with h2 | ⟨h2, h4⟩
    · exact absurd h1 (lt_asymm h2)
    · rw [h2] at h1
      exact absurd h1 (lt_irrefl _)
  · rcases hba with h2 | ⟨h2, h4⟩
    · rw [h1] at h2
      exact absurd h2 (lt_irrefl _)
    · exact le_antisymm h4 h3⟩

lemma length_argsort (d : ℕ) (v : ℕ → ℚ) : (argsort d v).length = d := by
  simp [argsort]

/-- Reversing the stable ascending argsort gives exactly the descending,
ties-by-highest-index sort of all indices. -/
lemma reverse_argsort_eq (d : ℕ) (v : ℕ → ℚ) :
    (argsort d v).reverse = List.insertionSort (descKey v) (List.range d) := by
  apply List.eq_of_perm_of_sorted (r := descKey v)
  · exact ((List.reverse_perm _).trans (List.perm_insertionSort _ _)).trans
      (List.perm_insertionSort (descKey v) (List.range d)).symm
  · show List.Pairwise (descKey v) (argsort d v).reverse
    rw [List.pairwise_reverse]
    have hs : List.Pairwise (ascKey v) (argsort d v) :=
      List.sorted_insertionSort (ascKey v) (List.range d)
    exact hs.imp fun hab => (descKey_swap v _ _).mpr hab
  · exact List.sorted_insertionSort _ _

instance (v : ℕ → ℚ) : IsAntisymm ℕ (ascKey v) := ⟨by
  intro a b hab hba
  rcases hab with h1 | ⟨h1, h3⟩
  · rcases hba with h2 | ⟨h2, h4⟩
    · exact absurd h1 (lt_asymm h2)
    · rw [h2] at h1
      exact absurd h1 (lt_irrefl _)
  · rcases hba with h2 | ⟨h2, h4⟩
    · rw [h1] at h2
      exact absurd h2 (lt_irrefl _)
    · exact le_antisymm h3 h4⟩

lemma ascKey_le {v : ℕ → ℚ} {a b : ℕ} (h : ascKey v a b) : v a ≤ v b := by
  rcases h with h | ⟨h, h2⟩
  · exact le_of_lt h
  · exact le_of_eq h

/-- The stable model is one valid argsort result: a permutation of the indices
weakly ascending in the values. -/
lemma argsort_isArgsortOf (d : ℕ) (v : ℕ → ℚ) : IsArgsortOf d v (argsort d v) :=
  ⟨List.perm_insertionSort _ _,
    (List.sorted_insertionSort (ascKey v) (List.range d)).imp fun h => ascKey_le h⟩

/-- In the stable model, the extraction for 0 < k ≤ d is exactly the first k
entries of the descending (value, then index descending) sort. -/
lemma top_words_stable_eq_topKDesc (d : ℕ) (v : ℕ → ℚ) (k : ℕ)
    (h0 : 0 < k) (hk : k ≤ d) : top_words d v (k : ℤ) = topKDesc d v k := by
  have hslice : sliceLast (argsort d v) (k : ℤ) = (argsort d v).drop (d - k) := by
    unfold sliceLast
    rw [if_pos (by exact_mod_cast h0), length_argsort, Int.toNat_natCast]
  unfold top_words topKDesc
  rw [hslice, List.reverse_drop, length_argsort, reverse_argsort_eq d v]
  congr 1
  omega

/-- Any two argsort results of a vector with pairwise distinct values agree:
with no ties the weakly ascending order is forced to be the strict one. -/
lemma isArgsortOf_eq_argsort {d : ℕ} {v : ℕ → ℚ} {l : List ℕ}
    (hl : IsArgsortOf d v l)
    (hinj : ∀ a ∈ List.range d, ∀ b ∈ List.range d, v a = v b → a = b) :
    l = argsort d v := by
  obtain ⟨hperm, hsort⟩ := hl
  have hnd : l.Nodup := hperm.nodup_iff.mpr (List.nodup_range d)
  have hasc : List.Sorted (ascKey v) l := by
    have hp : List.Pairwise (fun a b : ℕ => v a ≤ v b ∧ a ≠ b) l := hsort.and hnd
    refine hp.imp_of_mem ?_
    intro a b ha hb hab
    rcases lt_or_eq_of_le hab.1 with h | h
    · exact Or.inl h
    · exact absurd (hinj a (hperm.mem_iff.mp ha) b (hperm.mem_iff.mp hb) h) hab.2
  exact List.eq_of_perm_of_sorted
    (hperm.trans (List.perm_insertionSort (ascKey v) (List.range d)).symm) hasc
    (List.sorted_insertionSort (ascKey v) (List.range d))

/-- C1: for every prediction matrix and feature matrix, the class-`c` pattern
computed by the notebook (`labels_normalized[:,c].T @ data_scaled`) equals the
vector-matrix product of the column-standardized prediction column `c`
(transposed) with the variance-only-scaled feature matrix, a dense vector of
length `d`. -/
theorem pattern_is_matrix_product {n d k : ℕ} (P : Fin n → Fin k → ℝ)
    (X : Fin n → Fin d → ℝ) (c : Fin k) : pattern P X c = patternSpec P X c := by
  funext j
  simp [pattern, patternSpec, Matrix.vecMul, Matrix.dotProduct]

/-- C2: the two scaling steps are asymmetric: every prediction column is
standardized to mean 0 and (population) variance 1, while every feature column
is only divided by its standard deviation, with no mean subtraction, so each
scaled feature column has variance 1 and zero feature entries stay zero. -/
theorem scaling_asymmetry {n d k : ℕ} (P : Fin n → Fin k → ℝ)
    (X : Fin n → Fin d → ℝ) (c : Fin k) (j : Fin d) (hn : 0 < n)
    (hP : variance (column P c) ≠ 0) (hX : variance (column X j) ≠ 0) :
    mean (fun i => labels_normalized P i c) = 0 ∧
    variance (fun i => labels_normalized P i c) = 1 ∧
    (∀ i, data_scaled X i j = X i j / Real.sqrt (variance (column X j))) ∧
    variance (fun i => data_scaled X i j) = 1 ∧
    (∀ i, X i j = 0 → data_scaled X i j = 0) := by
  refine ⟨mean_standardize hn (column P c), variance_standardize hn (column P c) hP,
    ?_, variance_scaleColumn (column X j) hX, ?_⟩
  · intro i
    have h1 : data_scaled X i j = X i j / scaleOf (column X j) := rfl
    rw [h1, scaleOf_eq_sqrt (column X j) hX]
  · intro i h0
    have h1 : data_scaled X i j = X i j / scaleOf (column X j) := rfl
    rw [h1, h0, zero_div]

/-- Witness for `scaling_asymmetry` at the concrete input `P2`, `X2`. -/
theorem scaling_asymmetry_witness :
    variance (column P2 0) ≠ 0 ∧ variance (column X2 0) ≠ 0 ∧
    (mean (fun i => labels_normalized P2 i 0) = 0 ∧
     variance (fun i => labels_normalized P2 i 0) = 1 ∧
     (∀ i, data_scaled X2 i 0 = X2 i 0 / Real.sqrt (variance (column X2 0))) ∧
     variance (fun i => data_scaled X2 i 0) = 1 ∧
     (∀ i, X2 i 0 = 0 → data_scaled X2 i 0 = 0)) := by
  have hP : variance (column P2 0) ≠ 0 := by
    norm_num [variance, mean, column, P2, Fin.sum_univ_two]
  have hX : variance (column X2 0) ≠ 0 := by
    norm_num [variance, mean, column, X2, Fin.sum_univ_two]
  exact ⟨hP, hX, scaling_asymmetry P2 X2 0 0 (by norm_num) hP hX⟩

/-- C3: every entry of `word_scores` is the elementwise product
sign × presence-indicator × class-0 pattern, with the indicator equal to 1
exactly when the scaled feature entry is positive; consequently the relevance
at any term absent from the document (raw feature entry zero) is zero. -/
theorem word_scores_elementwise {n d : ℕ} (P : Fin n → Fin 2 → ℝ)
    (X : Fin n → Fin d → ℝ) (i : Fin n) (j : Fin d) :
    word_scores P X i j
      = prediction_sign P i * (if 0 < data_scaled X i j then 1 else 0)
          * pattern P X 0 j ∧
    (X i j = 0 → word_scores P X i j = 0) := by
  refine ⟨word_scores_apply P X i j, fun h0 => ?_⟩
  rw [word_scores_apply]
  have h1 : data_scaled X i j = 0 := by
    have h2 : data_scaled X i j = X i j / scaleOf (column X j) := rfl
    rw [h2, h0, zero_div]
  rw [h1]
  simp

/-- Witness for `word_scores_elementwise`: at `X3 0 1 = 0` the relevance
vanishes. -/
theorem word_scores_elementwise_witness :
    X3 0 1 = 0 ∧ word_scores P3 X3 0 1 = 0 := by
  have h0 : X3 0 1 = 0 := by norm_num [X3]
  exact ⟨h0, (word_scores_elementwise P3 X3 0 1).2 h0⟩

/-- C7: the pattern estimator returns one dense vector of length `d` per class
(enforced by its type) and is equivariant under a joint row permutation of the
predictions and the features: permuting the rows of both leaves every class
pattern unchanged. -/
theorem pattern_perm_invariant {n d k : ℕ} (P : Fin n → Fin k → ℝ)
    (X : Fin n → Fin d → ℝ) (σ : Equiv.Perm (Fin n)) (c : Fin k) :
    pattern (fun i => P (σ i)) (fun i => X (σ i)) c = pattern P X c := by
  funext j
  show ∑ i, labels_normalized (fun i2 => P (σ i2)) i c
        * data_scaled (fun i2 => X (σ i2)) i j
      = ∑ i, labels_normalized P i c * data_scaled X i j
  have h1 : ∀ i, labels_normalized (fun i2 => P (σ i2)) i c
      = labels_normalized P (σ i) c :=
    fun i => standardizeColumn_comp_perm (column P c) σ i
  have h2 : ∀ i, data_scaled (fun i2 => X (σ i2)) i j = data_scaled X (σ i) j :=
    fun i => scaleColumn_comp_perm (column X j) σ i
  have h3 : ∑ i, labels_normalized (fun i2 => P (σ i2)) i c
        * data_scaled (fun i2 => X (σ i2)) i j
      = ∑ i, labels_normalized P (σ i) c * data_scaled X (σ i) j :=
    Finset.sum_congr rfl fun i _ => by rw [h1 i, h2 i]
  rw [h3]
  exact Equiv.sum_comp σ (fun i => labels_normalized P i c * data_scaled X i j)

/-- C8: for every feature row and pattern, the relevance vector computed with
prediction sign `-1` is the exact elementwise negation of the one computed
with sign `+1`. -/
theorem score_document_sign_negation {d : ℕ} (x a : Fin d → ℝ) :
    score_document x (-1) a = fun j => -(score_document x 1 a j) := by
  funext j
  unfold score_document
  ring

/-- C9: the variance-only feature scaling is idempotent: a column that already
has unit variance is returned unchanged (exactly, in real arithmetic). -/
theorem scaleColumn_idempotent {n : ℕ} (v : Fin n → ℝ) (h : variance v = 1) :
    scaleColumn v = v := by
  funext i
  unfold scaleColumn scaleOf handleZeros
  rw [h, Real.sqrt_one, if_neg one_ne_zero, div_one]

/-- Witness for `scaleColumn_idempotent` at the unit-variance column `v9`. -/
theorem scaleColumn_idempotent_witness :
    variance v9 = 1 ∧ scaleColumn v9 = v9 := by
  have h : variance v9 = 1 := by
    norm_num [variance, mean, v9, Fin.sum_univ_two]
  exact ⟨h, scaleColumn_idempotent v9 h⟩

/-- C10: dividing a non-negative feature matrix columnwise by strictly
positive scales leaves the presence indicator unchanged: the scaled entry is
positive exactly where the raw entry is nonzero; in particular this holds for
`data_scaled`, so the support of every relevance row is independent of the
feature-scaling step. -/
theorem indicator_scaling_invariant {n d : ℕ} (X : Fin n → Fin d → ℝ)
    (hX : ∀ i j, 0 ≤ X i j) (s : Fin d → ℝ) (hs : ∀ j, 0 < s j)
    (i : Fin n) (j : Fin d) :
    (0 < X i j / s j ↔ X i j ≠ 0) ∧ (0 < data_scaled X i j ↔ X i j ≠ 0) := by
  have key : ∀ t : ℝ, 0 < t → (0 < X i j / t ↔ X i j ≠ 0) := by
    intro t ht
    constructor
    · intro h hz
      rw [hz, zero_div] at h
      exact lt_irrefl 0 h
    · intro hne
      exact div_pos (lt_of_le_of_ne (hX i j) (Ne.symm hne)) ht
  refine ⟨key (s j) (hs j), ?_⟩
  have h1 : data_scaled X i j = X i j / scaleOf (column X j) := rfl
  rw [h1]
  exact key (scaleOf (column X j)) (scaleOf_pos (column X j))

/-- Witness for `indicator_scaling_invariant` at `X10`, scale `s10`. -/
theorem indicator_scaling_invariant_witness :
    (0 < X10 0 0 / s10 0 ↔ X10 0 0 ≠ 0) ∧
    (0 < data_scaled X10 0 0 ↔ X10 0 0 ≠ 0) := by
  have hX : ∀ i j : Fin 1, 0 ≤ X10 i j := by
    intro i j
    fin_cases i
    fin_cases j
    norm_num [X10]
  have hs : ∀ j : Fin 1, 0 < s10 j := by
    intro j
    norm_num [s10]
  exact indicator_scaling_invariant X10 hX s10 hs 0 0

/-- C5 counterexample: on the constant prediction matrix `P5` the pipeline
does not fail: `StandardScaler` substitutes scale 1 for the zero-variance
class-0 column, the standardized column is identically zero, and a pattern
(the zero vector, not an error and not NaN) is returned. -/
theorem degenerate_column_returns_pattern :
    pattern P5 X5 0 = fun _ => (0 : ℝ) := by
  funext j
  show ∑ i, labels_normalized P5 i 0 * data_scaled X5 i j = 0
  have hl : ∀ i, labels_normalized P5 i 0 = 0 := by
    intro i
    have h1 : labels_normalized P5 i 0
        = (P5 i 0 - mean (column P5 0)) / scaleOf (column P5 0) := rfl
    have hm : mean (column P5 0) = 1 := by
      norm_num [mean, column, P5, Fin.sum_univ_three]
    rw [h1, hm]
    fin_cases i <;> norm_num [P5]
  exact Finset.sum_eq_zero fun i _ => by rw [hl i, zero_mul]

/-- C5 amended: a zero-variance prediction column does not raise any error:
its standardized column is identically zero (the zero scale is replaced by 1,
and every deviation from the mean is zero), and the pattern for that class is
returned as the zero vector; no NaN or Inf arises. -/
theorem degenerate_column_zero_pattern {n d k : ℕ} (P : Fin n → Fin k → ℝ)
    (X : Fin n → Fin d → ℝ) (c : Fin k) (h : variance (column P c) = 0) :
    (∀ i, labels_normalized P i c = 0) ∧ pattern P X c = fun _ => (0 : ℝ) := by
  have hl : ∀ i, labels_normalized P i c = 0 := by
    intro i
    have h1 : labels_normalized P i c
        = (P i c - mean (column P c)) / scaleOf (column P c) := rfl
    have hdev : P i c - mean (column P c) = 0 := by
      rcases Nat.eq_zero_or_pos n with hn | hn
      · exact (Nat.not_lt_zero i.val (hn ▸ i.isLt)).elim
      · have hn2 : (n : ℝ) ≠ 0 := Nat.cast_ne_zero.mpr hn.ne'
        have hsum : ∑ i2, (column P c i2 - mean (column P c)) ^ 2 = 0 := by
          unfold variance at h
          rcases div_eq_zero_iff.mp h with hs | hn0
          · exact hs
          · exact absurd hn0 hn2
        have hterm := (Finset.sum_eq_zero_iff_of_nonneg
          (fun i2 _ => sq_nonneg (column P c i2 - mean (column P c)))).mp
          hsum i (Finset.mem_univ i)
        exact sq_eq_zero_iff.mp hterm
    rw [h1, hdev, zero_div]
  refine ⟨hl, ?_⟩
  funext j
  show ∑ i, labels_normalized P i c * data_scaled X i j = 0
  exact Finset.sum_eq_zero fun i _ => by rw [hl i, zero_mul]

/-- Witness for `degenerate_column_zero_pattern` at the degenerate input
`P5` (three identical rows `[1, 0]`). -/
theorem degenerate_column_zero_pattern_witness :
    variance (column P5 0) = 0 ∧ pattern P5 X5 0 = fun _ => (0 : ℝ) := by
  have h : variance (column P5 0) = 0 := by
    norm_num [variance, mean, column, P5, Fin.sum_univ_three]
  exact ⟨h, (degenerate_column_zero_pattern P5 X5 0 h).2⟩

/-- C4 counterexample: on the claim example (relevance 0.9 at index 1, 0.5 at
indices 2 and 5, vocabulary size 6) with k = 2 the notebook computation
returns [1, 5], not the claimed [1, 2]: the tie at value 0.5 is broken by the
highest index, because the last two entries of the ascending stable argsort
are taken and reversed. -/
theorem top_words_tie_counterexample :
    top_words 6 vTie 2 = [1, 5] ∧ top_words 6 vTie 2 ≠ [1, 2] := by
  constructor
  · decide
  · decide

/-- C4 amended: for every relevance vector, every k with 0 < k ≤ d, and every
ascending argsort result `l` of the vector (any permutation of the d indices
weakly ascending by value — all that `np.argsort` guarantees for its default,
non-stable kind), the notebook's extraction `l[-k:][::-1]` returns exactly k
indices, in descending order of relevance value, whose values dominate the
values at all omitted indices (so they carry the k largest values); and when
the relevance values are pairwise distinct on the vocabulary the output is
unique across sort kinds, hence deterministic, and equals the descending
top-k.  Ties at equal value are NOT broken by the lowest index: the tie order
is that of the underlying sort (highest index under numpy's stable small-array
path, unspecified in general). -/
theorem top_words_returns_k_largest (d : ℕ) (v : ℕ → ℚ) (k : ℕ) (l : List ℕ)
    (hl : IsArgsortOf d v l) (h0 : 0 < k) (hk : k ≤ d) :
    (topFrom l (k : ℤ)).length = k ∧
    List.Sorted (fun a b => v b ≤ v a) (topFrom l (k : ℤ)) ∧
    (∀ a ∈ topFrom l (k : ℤ), ∀ b ∈ List.range d,
      b ∉ topFrom l (k : ℤ) → v b ≤ v a) ∧
    ((∀ a ∈ List.range d, ∀ b ∈ List.range d, v a = v b → a = b) →
      topFrom l (k : ℤ) = topKDesc d v k) := by
  obtain ⟨hperm, hsort⟩ := hl
  have hlen : l.length = d := by rw [hperm.length_eq, List.length_range]
  have htop : topFrom l (k : ℤ) = (l.drop (d - k)).reverse := by
    unfold topFrom sliceLast
    rw [if_pos (by exact_mod_cast h0), hlen, Int.toNat_natCast]
  refine ⟨?_, ?_, ?_, ?_⟩
  · rw [htop, List.length_reverse, List.length_drop, hlen]
    omega
  · rw [htop]
    show List.Pairwise _ _
    rw [List.pairwise_reverse]
    exact List.Pairwise.sublist (List.drop_sublist _ _) hsort
  · intro a ha b hb hbn
    have hal : a ∈ l.drop (d - k) := by
      rw [htop] at ha
      exact List.mem_reverse.mp ha
    have hbl : b ∈ l.take (d - k) ++ l.drop (d - k) := by
      rw [List.take_append_drop]
      exact hperm.mem_iff.mpr hb
    rcases List.mem_append.mp hbl with htk | hdr
    · exact hsort.rel_of_mem_take_of_mem_drop htk hal
    · refine absurd ?_ hbn
      rw [htop]
      exact List.mem_reverse.mpr hdr
  · intro hinj
    rw [isArgsortOf_eq_argsort ⟨hperm, hsort⟩ hinj]
    exact top_words_stable_eq_topKDesc d v k h0 hk

/-- Witness for `top_words_returns_k_largest` at d = 3, k = 2, the
pairwise-distinct row `vInj` and its (stable-path) argsort. -/
theorem top_words_returns_k_largest_witness :
    (topFrom (argsort 3 vInj) ((2 : ℕ) : ℤ)).length = 2 ∧
    topFrom (argsort 3 vInj) ((2 : ℕ) : ℤ) = topKDesc 3 vInj 2 :=
  ⟨(top_words_returns_k_largest 3 vInj 2 (argsort 3 vInj)
      (argsort_isArgsortOf 3 vInj) (by decide) (by decide)).1,
   (top_words_returns_k_largest 3 vInj 2 (argsort 3 vInj)
      (argsort_isArgsortOf 3 vInj) (by decide) (by decide)).2.2.2 (by decide)⟩

/-- C6 counterexample: `top_words` never fails with an InvalidArgument error:
with d = 3 and the single-nonzero row `v6`, k = 2 silently pads with the
zero-relevance index 2, k = 5 > d returns all three indices, and k = -1
returns a shorter slice: each case returns an ordinary list. -/
theorem top_words_no_error_counterexample :
    top_words 3 v6 2 = [0, 2] ∧ top_words 3 v6 5 = [0, 2, 1] ∧
    top_words 3 v6 (-1) = [0, 2] := by
  refine ⟨by decide, by decide, by decide⟩

/-- C6 amended: `top_words` is total and never signals an error: for k ≥ d it
returns the whole reversed argsort (all d indices), for 0 < k it returns
min k d indices (silently including zero-relevance indices when the row has
fewer than k nonzero entries), and for k ≤ 0 it returns the reversed suffix
of length d - (-k) of the argsort (Python slice semantics), never a failure. -/
theorem top_words_total (d : ℕ) (v : ℕ → ℚ) (k : ℤ) :
    ((d : ℤ) ≤ k → top_words d v k = (argsort d v).reverse) ∧
    (0 < k → (top_words d v k).length = min k.toNat d) ∧
    (k ≤ 0 → (top_words d v k).length = d - (-k).toNat) := by
  refine ⟨?_, ?_, ?_⟩
  · intro hdk
    unfold top_words sliceLast
    by_cases h0 : 0 < k
    · rw [if_pos h0, length_argsort]
      have hz : d - k.toNat = 0 := by omega
      rw [hz, List.drop_zero]
    · rw [if_neg h0]
      have hz : (-k).toNat = 0 := by omega
      rw [hz, List.drop_zero]
  · intro h0
    unfold top_words sliceLast
    rw [if_pos h0, List.length_reverse, List.length_drop, length_argsort]
    omega
  · intro hk
    unfold top_words sliceLast
    rw [if_neg (by omega), List.length_reverse, List.length_drop, length_argsort]

/-- Witness for `top_words_total`: with d = 3 and k = 5 the whole reversed
argsort is returned. -/
theorem top_words_total_witness :
    (3 : ℤ) ≤ 5 ∧ top_words 3 v6 5 = (argsort 3 v6).reverse :=
  ⟨by decide, (top_words_total 3 v6 5).1 (by decide)⟩

end Imdb
